import Mathlib

/-!
Verification of the line-delimited echo server (`src/echo_server.ts`).

The TypeScript source is shallowly embedded: JavaScript `Buffer`s become
`List Nat` (one `Nat` per byte), the mutable `DynBuf` record becomes a
structure threaded through pure functions, and the promise-based socket
layer becomes a state machine on an explicit connection record together
with an event type mirroring the `data`/`end`/`error` callbacks installed
by `soInit`.
-/

set_option autoImplicit false

namespace EchoSrv

/-- A byte string: one `Nat` per byte (values are bytes 0..255 in practice,
but nothing below depends on the bound). -/
abbrev Bytes := List Nat

/-- The newline delimiter byte `\n` (0x0A). -/
def NL : Nat := 10

/-- Bytes of `quit\n`: the literal command message compared against in
`serveClient` (`msg.equals(Buffer.from("quit\n"))`). -/
def quitMsg : Bytes := [113, 117, 105, 116, NL]

/-- Bytes of `Bye\n`: the acknowledgment written on the quit path. -/
def byeMsg : Bytes := [66, 121, 101, NL]

/-- Bytes of `Echo: `: the fixed literal prepended to every echoed message
(`Buffer.concat([Buffer.from("Echo: "), msg])`). -/
def echoTag : Bytes := [69, 99, 104, 111, 58, 32]

/-- JavaScript `src.copy(dst, off)` / `copyWithin`: overwrite `dst` starting
at `off` with as much of `src` as fits, leaving the rest of `dst` unchanged.
The result always has `dst`'s length when `off ≤ dst.length`. -/
def bufCopy (src dst : Bytes) (off : Nat) : Bytes :=
  dst.take off ++ src.take (dst.length - off)
    ++ dst.drop (off + min src.length (dst.length - off))

/-- The capacity-growth loop of `bufPush`:
`while (cap < newLen) { cap *= 2; }`. The source always enters it with
`cap = Math.max(buf.data.length, 32) ≥ 32 > 0`, which is what makes the
loop terminate. -/
def growCap (cap newLen : Nat) : Nat :=
  if h : 0 < cap ∧ cap < newLen then growCap (cap * 2) newLen else cap
termination_by newLen - cap
decreasing_by
  omega

/-- The `DynBuf` record: allocated storage `data` plus the count `size` of bytes
actually used. (`data.length` plays the role of the allocation's capacity,
`buf.data.length` in the source.) -/
structure DynBuf where
  data : Bytes
  size : Nat
  deriving Repr, DecidableEq

/-- The buffer `serveClient` starts from: `{ data: Buffer.alloc(0), size: 0 }`. -/
def emptyBuf : DynBuf := { data := [], size := 0 }

/-- The used region `[0, size)` of a buffer: the bytes the framer scans. -/
def DynBuf.used (buf : DynBuf) : Bytes := buf.data.take buf.size

/-- Well-formedness: the used count never exceeds the allocation
(established by `bufPush`/`bufPop` below, starting from `emptyBuf`). -/
abbrev DynBuf.wf (buf : DynBuf) : Prop := buf.size ≤ buf.data.length

/-- Push: `bufPush(buf, data)` appends `data` to the used region, first growing
the allocation by doubling (minimum 32) if `size + data.length` exceeds it. -/
def bufPush (buf : DynBuf) (d : Bytes) : DynBuf :=
  let newLen := buf.size + d.length
  let data1 : Bytes :=
    if buf.data.length < newLen then
      let cap := growCap (max buf.data.length 32) newLen
      bufCopy buf.data (List.replicate cap 0) 0
    else
      buf.data
  { data := bufCopy d data1 buf.size, size := newLen }

/-- Pop: `bufPop(buf, len)` is `buf.data.copyWithin(0, len, buf.size); buf.size -= len`.
(Caller precondition `0 ≤ len ≤ size`; on `len > size` the JS version would
drive `size` negative, here `Nat` subtraction truncates at 0.) -/
def bufPop (buf : DynBuf) (len : Nat) : DynBuf :=
  { data := bufCopy ((buf.data.take buf.size).drop len) buf.data 0,
    size := buf.size - len }

/-- Cut: `cutMessage(buf)` finds the first `\n` in the used region
(`buf.data.subarray(0, buf.size).indexOf("\n")`); if absent return `null`
and leave the buffer alone, otherwise return a copy of bytes `[0, idx+1)`
and `bufPop(buf, idx + 1)`. Returns the (optional) message together with
the post-call buffer. -/
def cutMessage (buf : DynBuf) : Option Bytes × DynBuf :=
  match (buf.data.take buf.size).findIdx? (· == NL) with
  | none => (none, buf)
  | some idx => (some (buf.data.take (idx + 1)), bufPop buf (idx + 1))

/-! ### Line segmentation: the messages and remainder of a byte string -/

/-- The complete delimiter-terminated messages of a byte string, from the
front; `acc` is the partial message accumulated so far. -/
def segsAux : Bytes → Bytes → List Bytes
  | [], _ => []
  | c :: rest, acc =>
    if c == NL then (acc ++ [NL]) :: segsAux rest [] else segsAux rest (acc ++ [c])

/-- All complete (newline-terminated) messages of a byte string, in order. -/
def lineSegments (s : Bytes) : List Bytes := segsAux s []

/-- The partial message accumulated after a prefix of complete messages. -/
def remAux : Bytes → Bytes → Bytes
  | [], acc => acc
  | c :: rest, acc => if c == NL then remAux rest [] else remAux rest (acc ++ [c])

/-- The delimiter-free remainder of a byte string after its last newline. -/
def lineRest (s : Bytes) : Bytes := remAux s []

/-- Successive `cutMessage` calls, `n` of them: the list of their results in call
order, together with the final buffer. -/
def cuts : Nat → DynBuf → List (Option Bytes) × DynBuf
  | 0, b => ([], b)
  | n + 1, b =>
    let r := cutMessage b
    let rs := cuts n r.2
    (r.1 :: rs.1, rs.2)

/-! ### Buffer operation sequences, for the capacity invariant -/

/-- A mutation of the dynamic buffer: one `bufPush` or `bufPop` call. -/
inductive BufOp
  | push (d : Bytes)
  | pop (n : Nat)

/-- Apply one operation to a buffer. -/
def applyOp (b : DynBuf) : BufOp → DynBuf
  | .push d => bufPush b d
  | .pop n => bufPop b n

/-- Run a sequence of push/pop operations from the initial empty buffer
(`serveClient` starts each connection from `{ data: Buffer.alloc(0), size: 0 }`). -/
def runOps (ops : List BufOp) : DynBuf := ops.foldl applyOp emptyBuf

/-- One step of the peak-tracking fold: apply the operation and record the
largest used size seen so far. -/
def peakAux (st : DynBuf × Nat) (op : BufOp) : DynBuf × Nat :=
  let b := applyOp st.1 op
  (b, max st.2 b.size)

/-- The peak used size reached over a whole operation history (0 for the
initial empty buffer). -/
def peakUsed (ops : List BufOp) : Nat := (ops.foldl peakAux (emptyBuf, 0)).2

/-- The smallest capacity of the form `32 * 2 ^ k` that is at least `n`:
what the doubling loop of `bufPush` produces starting from the minimum
capacity 32. -/
def minCap (n : Nat) : Nat := growCap 32 n

/-! ### The connection adapter: soInit callbacks, soRead, soWrite -/

/-- An error recorded on a connection. The JS `Error` object is opaque to
this layer; only its identity matters, so a `Nat` stands for it. -/
abbrev Err := Nat

/-- Transport-level actions an operation may perform on the underlying
socket (`socket.pause()`, `socket.resume()`, `socket.write(data, cb)`). -/
inductive SockAct
  | pause
  | resume
  | writeData (d : Bytes)
  deriving Repr, DecidableEq

/-- The per-connection state created by `soInit`: `err`, `ended`, and
whether `conn.reader` currently holds a pending reader. -/
structure TCPConn where
  err : Option Err
  ended : Bool
  reader : Bool
  deriving Repr, DecidableEq

/-- Initial state from `soInit`: `{ err: null, ended: false, reader: null }`. -/
def soInit : TCPConn := { err := none, ended := false, reader := false }

/-- A socket event delivered to one of the three callbacks `soInit`
registered (`data`, `end`, `error`). -/
inductive ConnEvent
  | data (d : Bytes)
  | eos
  | errored (e : Err)
  deriving Repr, DecidableEq

/-- What an event handler did to the pending reader, if any. -/
inductive ReaderDelivery
  | untouched
  | resolvedWith (d : Bytes)
  | rejectedWith (e : Err)
  deriving Repr, DecidableEq

/-- The `data`/`end`/`error` callbacks of `soInit`, as one transition:
the updated connection state, what was delivered to the pending reader,
and the transport actions performed.
  * `data`: `socket.pause(); conn.reader?.resolve(data); conn.reader = null`.
  * `end`: `conn.ended = true`; resolve a pending reader with empty bytes.
  * `error`: `conn.err = err`; reject a pending reader with it. -/
def handleEvent (c : TCPConn) : ConnEvent → TCPConn × ReaderDelivery × List SockAct
  | .data d =>
    ({ c with reader := false },
      if c.reader then .resolvedWith d else .untouched, [SockAct.pause])
  | .eos =>
    ({ c with ended := true, reader := false },
      if c.reader then .resolvedWith [] else .untouched, [])
  | .errored e =>
    ({ c with err := some e, reader := false },
      if c.reader then .rejectedWith e else .untouched, [])

/-- Process a list of socket events in order, keeping the final state. -/
def runEvents (c : TCPConn) (evs : List ConnEvent) : TCPConn :=
  evs.foldl (fun s ev => (handleEvent s ev).1) c

/-- The synchronous outcome of a `soRead` call. -/
inductive ReadOutcome
  | rejected (e : Err)
  | resolvedEmpty
  | suspended
  deriving Repr, DecidableEq

/-- Read: `soRead` rejects at once with a recorded error; else resolve at once
with empty bytes after end-of-stream; else register as `conn.reader` and
`socket.resume()`, suspending the caller. Returns the outcome, the updated
state and the transport actions performed. -/
def soRead (c : TCPConn) : ReadOutcome × TCPConn × List SockAct :=
  match c.err with
  | some e => (.rejected e, c, [])
  | none =>
    if c.ended then (.resolvedEmpty, c, [])
    else (.suspended, { c with reader := true }, [SockAct.resume])

/-- The synchronous start of a `soWrite` call: fail fast on a recorded
error, or hand the bytes to `socket.write`. -/
inductive WriteStart
  | failedFast (e : Err)
  | issued
  deriving Repr, DecidableEq

/-- Write: `soWrite` consults only `conn.err`; without a recorded error the
bytes go to the transport whose completion callback decides the result. -/
def soWrite (c : TCPConn) (d : Bytes) : WriteStart × TCPConn × List SockAct :=
  match c.err with
  | some e => (.failedFast e, c, [])
  | none => (.issued, c, [SockAct.writeData d])

/-- The result of the completion callback `soWrite` passes to
`socket.write`. -/
inductive WriteOutcome
  | rejected (e : Err)
  | resolved
  deriving Repr, DecidableEq

/-- The completion callback body `(err) => err ? reject(err) : resolve()`. -/
def writeFinish : Option Err → WriteOutcome
  | some e => .rejected e
  | none => .resolved

/-! ### The serveClient handler loop -/

/-- The terminal state of a run of the `serveClient` loop: out of fuel,
blocked in `soRead` with the scripted input exhausted, or out of the loop
via the zero-length-read `break`. Terminals carry the writes performed in
order, whether `socket.destroy()` was ever called, and the final buffer. -/
inductive LoopRes
  | outOfFuel
  | blocked (writes : List Bytes) (destroyed : Bool) (buf : DynBuf)
  | ended (writes : List Bytes) (destroyed : Bool) (buf : DynBuf)
  deriving Repr, DecidableEq

/-- The `while (true)` loop of `serveClient`, with each `soRead` resolved
from the `inputs` queue (one chunk per read; the empty chunk plays the EOF
read). Mirrors the source: cut first; on `null` read, push, `break` on an
empty read, else continue; on `quit\n` write `Bye\n` and destroy the
socket — and, as in the source, fall through to the next iteration rather
than leaving the loop; on any other message write the `Echo: `-prefixed
reply and continue. `fuel` bounds the number of iterations. -/
def serveLoop (fuel : Nat) (buf : DynBuf) (inputs : List Bytes)
    (writes : List Bytes) (destroyed : Bool) : LoopRes :=
  match fuel with
  | 0 => .outOfFuel
  | fuel + 1 =>
    match cutMessage buf with
    | (none, buf2) =>
      match inputs with
      | [] => .blocked writes destroyed buf2
      | d :: rest =>
        let buf3 := bufPush buf2 d
        if d.length = 0 then .ended writes destroyed buf3
        else serveLoop fuel buf3 rest writes destroyed
    | (some msg, buf2) =>
      if msg = quitMsg then serveLoop fuel buf2 inputs (writes ++ [byeMsg]) true
      else serveLoop fuel buf2 inputs (writes ++ [echoTag ++ msg]) destroyed

/-- The writes a finished run performed, in order. -/
def LoopRes.writesOf : LoopRes → List Bytes
  | .outOfFuel => []
  | .blocked w _ _ => w
  | .ended w _ _ => w

/-- Whether `socket.destroy()` was called during the run. -/
def LoopRes.destroyedOf : LoopRes → Bool
  | .outOfFuel => false
  | .blocked _ d _ => d
  | .ended _ d _ => d

/-- Whether the run is suspended in `soRead` waiting for more input. -/
def LoopRes.isBlocked : LoopRes → Bool
  | .blocked _ _ _ => true
  | _ => false

/-! ### Basic lemmas about the copy and growth primitives -/

theorem bufCopy_fits (src dst : Bytes) (off : Nat) (h : off + src.length ≤ dst.length) :
    bufCopy src dst off = dst.take off ++ src ++ dst.drop (off + src.length) := by
  unfold bufCopy
  have h1 : min src.length (dst.length - off) = src.length := by omega
  have h2 : src.take (dst.length - off) = src := List.take_of_length_le (by omega)
  rw [h1, h2]

theorem bufCopy_length (src dst : Bytes) (off : Nat) (h : off ≤ dst.length) :
    (bufCopy src dst off).length = dst.length := by
  simp only [bufCopy, List.length_append, List.length_take, List.length_drop]
  omega

theorem growCap_self_le (cap n : Nat) : cap ≤ growCap cap n := by
  rw [growCap]
  split
  · exact le_trans (by omega) (growCap_self_le (cap * 2) n)
  · exact le_refl cap
termination_by n - cap
decreasing_by omega

theorem growCap_ge (cap n : Nat) (h : 0 < cap) : n ≤ growCap cap n := by
  rw [growCap]
  split
  · exact growCap_ge (cap * 2) n (by omega)
  · omega
termination_by n - cap
decreasing_by omega

theorem growCap_pow (cap n : Nat) : ∃ i, growCap cap n = cap * 2 ^ i := by
  rw [growCap]
  split
  · obtain ⟨i, hi⟩ := growCap_pow (cap * 2) n
    exact ⟨i + 1, by rw [hi]; ring⟩
  · exact ⟨0, by simp⟩
termination_by n - cap
decreasing_by omega

theorem growCap_min (cap n i : Nat) (h : n ≤ cap * 2 ^ i) : growCap cap n ≤ cap * 2 ^ i := by
  rw [growCap]
  split
  · rename_i hc
    have hi : i ≠ 0 := by
      rintro rfl
      simp at h
      omega
    have h2 : n ≤ cap * 2 * 2 ^ (i - 1) := by
      have : cap * 2 * 2 ^ (i - 1) = cap * 2 ^ i := by
        rw [Nat.mul_assoc]
        congr 1
        rw [← pow_succ']
        congr 1
        omega
      omega
    have := growCap_min (cap * 2) n (i - 1) h2
    calc growCap (cap * 2) n ≤ cap * 2 * 2 ^ (i - 1) := this
      _ = cap * 2 ^ i := by rw [Nat.mul_assoc, ← pow_succ']; congr 2; omega
  · calc cap = cap * 1 := by ring
      _ ≤ cap * 2 ^ i := Nat.mul_le_mul_left cap (Nat.one_le_two_pow)
termination_by n - cap
decreasing_by omega

/-! ### Specification of push, pop and cut on the used region -/

theorem used_length (b : DynBuf) (hwf : b.wf) : b.used.length = b.size := by
  simp only [DynBuf.used, List.length_take]
  exact Nat.min_eq_left hwf

theorem bufPush_size (b : DynBuf) (d : Bytes) : (bufPush b d).size = b.size + d.length := rfl

theorem bufPush_eq (b : DynBuf) (d : Bytes) :
    bufPush b d =
      { data := bufCopy d
          (if b.data.length < b.size + d.length then
            bufCopy b.data
              (List.replicate (growCap (max b.data.length 32) (b.size + d.length)) 0) 0
          else b.data) b.size,
        size := b.size + d.length } := rfl

theorem bufPush_cap_of_fits (b : DynBuf) (d : Bytes) (h : b.size + d.length ≤ b.data.length) :
    (bufPush b d).data.length = b.data.length := by
  rw [bufPush_eq]
  simp only [if_neg (by omega : ¬ b.data.length < b.size + d.length)]
  exact bufCopy_length _ _ _ (by omega)

theorem bufPush_cap_of_grow (b : DynBuf) (d : Bytes) (h : b.data.length < b.size + d.length) :
    (bufPush b d).data.length = growCap (max b.data.length 32) (b.size + d.length) := by
  rw [bufPush_eq]
  simp only [if_pos h]
  have hge : b.size + d.length ≤ growCap (max b.data.length 32) (b.size + d.length) :=
    growCap_ge _ _ (by omega)
  have h1 : (bufCopy b.data
      (List.replicate (growCap (max b.data.length 32) (b.size + d.length)) 0) 0).length
      = growCap (max b.data.length 32) (b.size + d.length) := by
    rw [bufCopy_length _ _ _ (by simp)]
    simp
  rw [bufCopy_length _ _ _ (by rw [h1]; omega), h1]

theorem bufPush_cap_le (b : DynBuf) (d : Bytes) :
    b.size + d.length ≤ (bufPush b d).data.length := by
  by_cases h : b.data.length < b.size + d.length
  · rw [bufPush_cap_of_grow b d h]
    exact growCap_ge _ _ (by omega)
  · rw [bufPush_cap_of_fits b d (by omega)]
    omega

theorem bufPush_wf (b : DynBuf) (d : Bytes) : (bufPush b d).wf := by
  show (bufPush b d).size ≤ (bufPush b d).data.length
  rw [bufPush_size]
  exact bufPush_cap_le b d

theorem bufPush_used (b : DynBuf) (d : Bytes) (hwf : b.wf) :
    (bufPush b d).used = b.used ++ d := by
  have hwf' : b.size ≤ b.data.length := hwf
  have key : ∀ data1 : Bytes, b.size ≤ data1.length → b.size + d.length ≤ data1.length →
      data1.take b.size = b.used →
      (bufCopy d data1 b.size).take (b.size + d.length) = b.used ++ d := by
    intro data1 hsz hfit hused
    rw [bufCopy_fits _ _ _ hfit]
    rw [List.take_left'
      (show (data1.take b.size ++ d).length = b.size + d.length by
        simp only [List.length_append, List.length_take]
        omega)]
    rw [hused]
  show (bufPush b d).data.take (bufPush b d).size = _
  rw [bufPush_size, bufPush_eq]
  by_cases hg : b.data.length < b.size + d.length
  · simp only [if_pos hg]
    have hcap : b.size + d.length ≤ growCap (max b.data.length 32) (b.size + d.length) :=
      growCap_ge _ _ (by omega)
    have hdata1 : bufCopy b.data
        (List.replicate (growCap (max b.data.length 32) (b.size + d.length)) 0) 0
        = b.data ++ List.replicate
            (growCap (max b.data.length 32) (b.size + d.length) - b.data.length) 0 := by
      rw [bufCopy_fits _ _ _ (by simp only [List.length_replicate]; omega)]
      simp [List.drop_replicate]
    rw [hdata1]
    apply key
    · simp only [List.length_append, List.length_replicate]
      omega
    · simp only [List.length_append, List.length_replicate]
      omega
    · rw [List.take_append_of_le_length (by omega)]
      rfl
  · simp only [if_neg hg]
    exact key b.data hwf (by omega) rfl

theorem bufPop_size (b : DynBuf) (n : Nat) : (bufPop b n).size = b.size - n := rfl

theorem bufPop_cap (b : DynBuf) (n : Nat) :
    (bufPop b n).data.length = b.data.length := by
  unfold bufPop
  exact bufCopy_length _ _ _ (Nat.zero_le _)

theorem bufPop_wf (b : DynBuf) (n : Nat) (hwf : b.wf) : (bufPop b n).wf := by
  have hwf' : b.size ≤ b.data.length := hwf
  show (bufPop b n).size ≤ (bufPop b n).data.length
  rw [bufPop_size, bufPop_cap b n]
  omega

theorem bufPop_used (b : DynBuf) (n : Nat) (hwf : b.wf) (h : n ≤ b.size) :
    (bufPop b n).used = b.used.drop n := by
  have hwf' : b.size ≤ b.data.length := hwf
  show (bufPop b n).data.take (bufPop b n).size = _
  rw [bufPop_size]
  unfold bufPop
  have hlen : ((b.data.take b.size).drop n).length = b.size - n := by
    simp only [List.length_drop, List.length_take]
    omega
  rw [bufCopy_fits ((b.data.take b.size).drop n) b.data 0
    (by simp only [List.length_drop, List.length_take]; omega)]
  simp only [List.take_zero, List.nil_append]
  rw [List.take_left' hlen]
  rfl

theorem cutMessage_of_no_delim (b : DynBuf) (h : NL ∉ b.used) : cutMessage b = (none, b) := by
  unfold cutMessage
  have hidx : (b.data.take b.size).findIdx? (· == NL) = none := by
    rw [List.findIdx?_eq_none_iff]
    intro x hx
    simp only [beq_eq_false_iff_ne, ne_eq]
    intro heq
    exact h (heq ▸ hx)
  rw [hidx]

theorem cutMessage_of_delim (b : DynBuf) (idx : Nat) (hwf : b.wf)
    (h : b.used.findIdx? (· == NL) = some idx) :
    cutMessage b = (some (b.used.take (idx + 1)), bufPop b (idx + 1)) ∧ idx < b.size := by
  have hlt : idx < b.used.length := by
    rw [List.findIdx?_eq_some_iff_getElem] at h
    exact h.1
  rw [used_length b hwf] at hlt
  constructor
  · unfold cutMessage
    rw [show (b.data.take b.size).findIdx? (· == NL) = some idx from h]
    have hmsg : b.used.take (idx + 1) = b.data.take (idx + 1) := by
      rw [DynBuf.used, List.take_take]
      congr 1
      omega
    rw [hmsg]
  · exact hlt

/-! ### Lemmas on line segmentation -/

theorem segsAux_of_no_delim (s : Bytes) (h : NL ∉ s) :
    ∀ acc, segsAux s acc = [] ∧ remAux s acc = acc ++ s := by
  induction s with
  | nil => intro acc; exact ⟨rfl, by simp [remAux]⟩
  | cons c rest ih =>
    intro acc
    have hc : (c == NL) = false := by
      simp only [beq_eq_false_iff_ne, ne_eq]
      intro hcc
      exact h (by simp [hcc])
    have ih2 := ih (fun hm => h (List.mem_cons_of_mem c hm)) (acc ++ [c])
    refine ⟨?_, ?_⟩
    · rw [segsAux, if_neg (by simp [hc])]
      exact ih2.1
    · rw [remAux, if_neg (by simp [hc])]
      rw [ih2.2]
      simp

theorem segsAux_of_delim (s : Bytes) (idx : Nat) (h : s.findIdx? (· == NL) = some idx) :
    ∀ acc, segsAux s acc = (acc ++ s.take (idx + 1)) :: lineSegments (s.drop (idx + 1))
      ∧ remAux s acc = lineRest (s.drop (idx + 1)) := by
  induction s generalizing idx with
  | nil => rw [List.findIdx?_nil] at h; exact absurd h (by simp)
  | cons c rest ih =>
    intro acc
    rw [List.findIdx?_cons] at h
    by_cases hc : (c == NL) = true
    · rw [if_pos hc] at h
      have hidx : idx = 0 := by cases h; rfl
      have hcnl : c = NL := by simpa using hc
      subst hidx
      refine ⟨?_, ?_⟩
      · rw [segsAux, if_pos hc]
        simp [hcnl, lineSegments]
      · rw [remAux, if_pos hc]
        simp [lineRest]
    · rw [if_neg hc, List.findIdx?_succ] at h
      obtain ⟨j, hj, rfl⟩ : ∃ j, rest.findIdx? (· == NL) = some j ∧ idx = j + 1 := by
        cases hfind : rest.findIdx? (· == NL) with
        | none => rw [hfind] at h; exact absurd h (by simp)
        | some j =>
          rw [hfind] at h
          exact ⟨j, rfl, by cases h; rfl⟩
      have ih2 := ih j hj (acc ++ [c])
      refine ⟨?_, ?_⟩
      · rw [segsAux, if_neg (by simpa using hc), ih2.1]
        simp
      · rw [remAux, if_neg (by simpa using hc), ih2.2]
        simp

theorem lineRest_no_delim (s : Bytes) : ∀ acc, NL ∉ acc → NL ∉ remAux s acc := by
  induction s with
  | nil => intro acc hacc; exact hacc
  | cons c rest ih =>
    intro acc hacc
    rw [remAux]
    by_cases hc : (c == NL) = true
    · rw [if_pos hc]
      exact ih [] (by simp)
    · rw [if_neg hc]
      refine ih (acc ++ [c]) ?_
      intro hm
      rcases List.mem_append.mp hm with hm1 | hm1
      · exact hacc hm1
      · simp only [List.mem_singleton] at hm1
        exact absurd (by simp [hm1] : (c == NL) = true) hc

theorem segsAux_shape (s : Bytes) :
    ∀ acc, NL ∉ acc → ∀ m ∈ segsAux s acc, ∃ p, m = p ++ [NL] ∧ NL ∉ p := by
  induction s with
  | nil => intro acc _ m hm; exact absurd hm (by simp [segsAux])
  | cons c rest ih =>
    intro acc hacc m hm
    rw [segsAux] at hm
    by_cases hc : (c == NL) = true
    · rw [if_pos hc] at hm
      rcases List.mem_cons.mp hm with hm1 | hm1
      · exact ⟨acc, hm1, hacc⟩
      · exact ih [] (by simp) m hm1
    · rw [if_neg hc] at hm
      refine ih (acc ++ [c]) ?_ m hm
      intro hmm
      rcases List.mem_append.mp hmm with hm1 | hm1
      · exact hacc hm1
      · simp only [List.mem_singleton] at hm1
        exact absurd (by simp [hm1] : (c == NL) = true) hc

theorem segsAux_flatten (s : Bytes) :
    ∀ acc, (segsAux s acc).flatten ++ remAux s acc = acc ++ s := by
  induction s with
  | nil => intro acc; simp [segsAux, remAux]
  | cons c rest ih =>
    intro acc
    rw [segsAux, remAux]
    by_cases hc : (c == NL) = true
    · rw [if_pos hc, if_pos hc]
      have hcnl : c = NL := by simpa using hc
      simp only [List.flatten_cons, List.append_assoc, ih []]
      simp [hcnl]
    · rw [if_neg hc, if_neg hc, ih (acc ++ [c])]
      simp

/-- Splitting facts at the first newline of `s`. -/
theorem findIdx_first (s : Bytes) (idx : Nat) (h : s.findIdx? (· == NL) = some idx) :
    idx < s.length ∧ s.take (idx + 1) = s.take idx ++ [NL] ∧ NL ∉ s.take idx
      ∧ s.count NL = (s.drop (idx + 1)).count NL + 1 := by
  rw [List.findIdx?_eq_some_iff_getElem] at h
  obtain ⟨hlt, hp, hmin⟩ := h
  have hnl : s[idx] = NL := by simpa using hp
  have htake : s.take (idx + 1) = s.take idx ++ [NL] := by
    rw [List.take_succ, List.getElem?_eq_getElem hlt, hnl]
    rfl
  have hnot : NL ∉ s.take idx := by
    intro hmem
    rw [List.mem_iff_getElem] at hmem
    obtain ⟨j, hj, hje⟩ := hmem
    have hjlen : j < idx := by
      simp only [List.length_take] at hj
      omega
    refine hmin j hjlen ?_
    rw [List.getElem_take] at hje
    simp [hje]
  refine ⟨hlt, htake, hnot, ?_⟩
  conv_lhs => rw [← List.take_append_drop (idx + 1) s]
  rw [List.count_append, htake, List.count_append, List.count_eq_zero.mpr hnot]
  simp [List.count_singleton, NL]
  omega

/-! ### Draining a buffer by repeated cuts -/

theorem emptyBuf_wf : emptyBuf.wf := Nat.le_refl 0

theorem emptyBuf_used : emptyBuf.used = [] := rfl

theorem pushAll_spec (chunks : List Bytes) : ∀ b : DynBuf, b.wf →
    (chunks.foldl bufPush b).wf ∧ (chunks.foldl bufPush b).used = b.used ++ chunks.flatten := by
  induction chunks with
  | nil =>
    intro b hwf
    exact ⟨hwf, by simp⟩
  | cons c rest ih =>
    intro b hwf
    simp only [List.foldl_cons, List.flatten_cons]
    obtain ⟨h1, h2⟩ := ih (bufPush b c) (bufPush_wf b c)
    refine ⟨h1, ?_⟩
    rw [h2, bufPush_used b c hwf]
    simp

theorem cuts_drain (n : Nat) : ∀ s : Bytes, s.length ≤ n → ∀ b : DynBuf, b.wf → b.used = s →
    (cuts (s.count NL) b).1 = (lineSegments s).map some
    ∧ (cuts (s.count NL) b).2.used = lineRest s
    ∧ (cuts (s.count NL) b).2.wf
    ∧ (lineSegments s).length = s.count NL := by
  induction n with
  | zero =>
    intro s hsl b hwf hu
    have hs : s = [] := List.length_eq_zero.mp (Nat.le_zero.mp hsl)
    subst hs
    exact ⟨by simp [cuts, lineSegments, segsAux], by simp [cuts, hu, lineRest, remAux],
      by simpa [cuts] using hwf, by simp [lineSegments, segsAux]⟩
  | succ n ih =>
    intro s hsl b hwf hu
    cases hfind : s.findIdx? (· == NL) with
    | none =>
      have hno : NL ∉ s := by
        rw [List.findIdx?_eq_none_iff] at hfind
        intro hm
        have := hfind NL hm
        simp at this
      have hcount : s.count NL = 0 := List.count_eq_zero.mpr hno
      have hsegs := segsAux_of_no_delim s hno []
      rw [hcount]
      refine ⟨by simp [cuts, lineSegments, hsegs.1], ?_, by simpa [cuts] using hwf, ?_⟩
      · show b.used = lineRest s
        rw [hu, lineRest, hsegs.2]
        simp
      · rw [lineSegments, hsegs.1]
        rfl
    | some idx =>
      obtain ⟨hlt, htake, hnot, hcount⟩ := findIdx_first s idx hfind
      have hused_find : b.used.findIdx? (· == NL) = some idx := by rw [hu]; exact hfind
      obtain ⟨hcut, hidxlt⟩ := cutMessage_of_delim b idx hwf hused_find
      have hb1wf := bufPop_wf b (idx + 1) hwf
      have hb1used : (bufPop b (idx + 1)).used = s.drop (idx + 1) := by
        rw [bufPop_used b _ hwf hidxlt, hu]
      have hlen2 : (s.drop (idx + 1)).length ≤ n := by
        simp only [List.length_drop]
        omega
      have ih2 := ih (s.drop (idx + 1)) hlen2 (bufPop b (idx + 1)) hb1wf hb1used
      have hsegs := segsAux_of_delim s idx hfind []
      have hcuts : cuts (s.count NL) b
          = ((cutMessage b).1 :: (cuts ((s.drop (idx + 1)).count NL) (cutMessage b).2).1,
             (cuts ((s.drop (idx + 1)).count NL) (cutMessage b).2).2) := by
        rw [hcount, cuts]
      rw [hcuts, hcut]
      have hseg_eq : lineSegments s
          = s.take (idx + 1) :: lineSegments (s.drop (idx + 1)) := by
        rw [lineSegments, hsegs.1]
        simp
      have hrest2 : lineRest s = lineRest (s.drop (idx + 1)) := hsegs.2
      rw [hrest2]
      refine ⟨?_, ih2.2.1, ih2.2.2.1, ?_⟩
      · rw [hseg_eq]
        simp only [List.map_cons]
        rw [hu]
        exact congrArg _ ih2.1
      · rw [hseg_eq, hcount]
        simp only [List.length_cons]
        rw [ih2.2.2.2]

/-- C1: for any sequence of chunks pushed into a fresh buffer whose
concatenation `s` holds `k` newline delimiters, `k` successive `cut` calls
all return a message — the bytes up to and including one delimiter each, in
arrival order (`lineSegments s`, whose members are exactly
delimiter-free-prefix-plus-newline and which concatenate back to `s` up to
the delimiter-free remainder) — and a further `cut` on the remainder
returns `null` and changes nothing. -/
theorem C1_framing_correct (chunks : List Bytes) :
    (cuts (chunks.flatten.count NL) (chunks.foldl bufPush emptyBuf)).1
        = (lineSegments chunks.flatten).map some
    ∧ (lineSegments chunks.flatten).length = chunks.flatten.count NL
    ∧ (∀ m ∈ lineSegments chunks.flatten, ∃ p, m = p ++ [NL] ∧ NL ∉ p)
    ∧ (lineSegments chunks.flatten).flatten ++ lineRest chunks.flatten = chunks.flatten
    ∧ NL ∉ lineRest chunks.flatten
    ∧ cutMessage (cuts (chunks.flatten.count NL) (chunks.foldl bufPush emptyBuf)).2
        = (none, (cuts (chunks.flatten.count NL) (chunks.foldl bufPush emptyBuf)).2) := by
  obtain ⟨hwf, hused⟩ := pushAll_spec chunks emptyBuf emptyBuf_wf
  rw [emptyBuf_used] at hused
  simp only [List.nil_append] at hused
  obtain ⟨h1, h2, h3, h4⟩ :=
    cuts_drain chunks.flatten.length chunks.flatten (Nat.le_refl _) _ hwf hused
  have hrest : NL ∉ lineRest chunks.flatten := lineRest_no_delim _ [] (by simp)
  refine ⟨h1, h4, segsAux_shape chunks.flatten [] (by simp), segsAux_flatten chunks.flatten [],
    hrest, ?_⟩
  refine cutMessage_of_no_delim _ ?_
  rw [h2]
  exact hrest

/-- C2: on any well-formed buffer, `cut` returns `null` and leaves the
buffer unchanged when the used region has no newline; otherwise, with `idx`
the first newline index, it returns the bytes `[0, idx+1)` and shrinks the
used region to the remaining bytes shifted to offset 0, decrementing `used`
by `idx+1` — the `pop` contract, which holds for every `n ≤ used`. -/
theorem C2_cut_pop_contract (b : DynBuf) (hwf : b.wf) :
    (NL ∉ b.used → cutMessage b = (none, b))
    ∧ (∀ idx, b.used.findIdx? (· == NL) = some idx →
        (cutMessage b).1 = some (b.used.take (idx + 1))
        ∧ (cutMessage b).2.used = b.used.drop (idx + 1)
        ∧ (cutMessage b).2.size = b.size - (idx + 1)
        ∧ idx + 1 ≤ b.size)
    ∧ (∀ n, n ≤ b.size →
        (bufPop b n).used = b.used.drop n ∧ (bufPop b n).size = b.size - n) := by
  refine ⟨cutMessage_of_no_delim b, ?_, ?_⟩
  · intro idx hidx
    obtain ⟨hcut, hlt⟩ := cutMessage_of_delim b idx hwf hidx
    rw [hcut]
    exact ⟨rfl, bufPop_used b _ hwf hlt, bufPop_size b _, hlt⟩
  · intro n hn
    exact ⟨bufPop_used b n hwf hn, bufPop_size b n⟩

theorem C2_cut_pop_contract_witness :
    (cutMessage { data := [104, 10, 105], size := 3 }).1 = some [104, 10]
    ∧ (cutMessage { data := [104, 10, 105], size := 3 }).2.used = [105] := by
  have h := (C2_cut_pop_contract { data := [104, 10, 105], size := 3 } (by decide)).2.1
    1 (by decide)
  refine ⟨?_, ?_⟩
  · rw [h.1]
    rfl
  · rw [h.2.1]
    rfl

/-- C8: a well-formed or not, any buffer whose used region holds no newline
is left completely unchanged by `cut`, which returns `null`, however many
times it is called. -/
theorem C8_idempotent_drain (b : DynBuf) (h : NL ∉ b.used) (m : Nat) :
    cuts m b = (List.replicate m none, b) := by
  induction m with
  | zero => rfl
  | succ k ih =>
    rw [cuts, cutMessage_of_no_delim b h]
    simp only [ih]
    rfl

theorem C8_idempotent_drain_witness :
    cuts 3 { data := [104, 105], size := 2 }
      = (List.replicate 3 none, { data := [104, 105], size := 2 }) :=
  C8_idempotent_drain { data := [104, 105], size := 2 } (by decide) 3

/-! ### The capacity invariant -/

theorem minCap_ge (n : Nat) : n ≤ minCap n := growCap_ge 32 n (by omega)

theorem minCap_pos (n : Nat) : 32 ≤ minCap n := growCap_self_le 32 n

theorem minCap_mono (p q : Nat) (h : p ≤ q) : minCap p ≤ minCap q := by
  obtain ⟨m, hm⟩ := growCap_pow 32 q
  have hq : q ≤ 32 * 2 ^ m := hm ▸ minCap_ge q
  have := growCap_min 32 p m (by omega)
  rw [minCap, minCap, hm]
  exact this

theorem minCap_idem (p : Nat) : minCap (minCap p) = minCap p := by
  refine Nat.le_antisymm ?_ (minCap_ge (minCap p))
  obtain ⟨m, hm⟩ := growCap_pow 32 p
  rw [minCap, minCap, hm]
  exact growCap_min 32 (32 * 2 ^ m) m (Nat.le_refl _)

theorem growCap_shift (j n : Nat) (h : 32 * 2 ^ j < n) :
    growCap (32 * 2 ^ j) n = growCap 32 n := by
  obtain ⟨m, hm⟩ := growCap_pow 32 n
  have hmn : n ≤ 32 * 2 ^ m := hm ▸ growCap_ge 32 n (by omega)
  obtain ⟨i, hi⟩ := growCap_pow (32 * 2 ^ j) n
  have hin : n ≤ 32 * 2 ^ j * 2 ^ i := hi ▸ growCap_ge (32 * 2 ^ j) n (by positivity)
  have hmj : j < m := by
    by_contra hc
    push_neg at hc
    have : (2:Nat) ^ m ≤ 2 ^ j := Nat.pow_le_pow_right (by omega) hc
    omega
  refine Nat.le_antisymm ?_ ?_
  · have hsplit : 32 * 2 ^ j * 2 ^ (m - j) = 32 * 2 ^ m := by
      rw [Nat.mul_assoc, ← pow_add]
      congr 2
      omega
    rw [hm]
    calc growCap (32 * 2 ^ j) n ≤ 32 * 2 ^ j * 2 ^ (m - j) :=
          growCap_min _ n (m - j) (by omega)
      _ = 32 * 2 ^ m := hsplit
  · rw [hi]
    have : 32 * 2 ^ j * 2 ^ i = 32 * 2 ^ (j + i) := by
      rw [Nat.mul_assoc, ← pow_add]
    rw [this]
    exact growCap_min 32 n (j + i) (by omega)

theorem minCap_pow (p : Nat) : ∃ j, minCap p = 32 * 2 ^ j := growCap_pow 32 p

theorem applyOp_wf (b : DynBuf) (op : BufOp) (hwf : b.wf) : (applyOp b op).wf := by
  cases op with
  | push d => exact bufPush_wf b d
  | pop n => exact bufPop_wf b n hwf

theorem applyOp_cap_mono (b : DynBuf) (op : BufOp) :
    b.data.length ≤ (applyOp b op).data.length := by
  cases op with
  | push d =>
    show b.data.length ≤ (bufPush b d).data.length
    by_cases h : b.data.length < b.size + d.length
    · rw [bufPush_cap_of_grow b d h]
      calc b.data.length ≤ max b.data.length 32 := Nat.le_max_left _ _
        _ ≤ growCap (max b.data.length 32) (b.size + d.length) := growCap_self_le _ _
    · rw [bufPush_cap_of_fits b d (by omega)]
  | pop n =>
    rw [show (applyOp b (.pop n)).data.length = (bufPop b n).data.length from rfl,
      bufPop_cap b n]

theorem foldl_cap_mono (ops : List BufOp) : ∀ b : DynBuf,
    b.data.length ≤ (ops.foldl applyOp b).data.length := by
  induction ops with
  | nil => intro b; exact Nat.le_refl _
  | cons op rest ih =>
    intro b
    calc b.data.length ≤ (applyOp b op).data.length := applyOp_cap_mono b op
      _ ≤ (rest.foldl applyOp (applyOp b op)).data.length := ih _

theorem peakAux_fst (ops : List BufOp) : ∀ b p,
    (ops.foldl peakAux (b, p)).1 = ops.foldl applyOp b := by
  induction ops with
  | nil => intro b p; rfl
  | cons op rest ih =>
    intro b p
    simp only [List.foldl_cons]
    exact ih (applyOp b op) (max p (applyOp b op).size)

/-- The per-step preservation of the capacity invariant: the buffer stays
well-formed, the updated peak dominates the new size and stays within the
new capacity, and the capacity is 0 until the first growing append and the
canonical doubled capacity for the peak afterwards. -/
theorem capStep (b : DynBuf) (p : Nat) (op : BufOp)
    (hwf : b.wf) (hsz : b.size ≤ p) (hpc : p ≤ b.data.length)
    (hcap : (p = 0 ∧ b.data.length = 0) ∨ b.data.length = minCap p) :
    (applyOp b op).wf ∧ (applyOp b op).size ≤ max p (applyOp b op).size
    ∧ max p (applyOp b op).size ≤ (applyOp b op).data.length
    ∧ ((max p (applyOp b op).size = 0 ∧ (applyOp b op).data.length = 0)
        ∨ (applyOp b op).data.length = minCap (max p (applyOp b op).size)) := by
  refine ⟨applyOp_wf b op hwf, Nat.le_max_right _ _, ?_, ?_⟩ <;> cases op
  case pop n =>
    show max p (bufPop b n).size ≤ (bufPop b n).data.length
    rw [bufPop_cap b n, bufPop_size]
    omega
  case pop n =>
    show (max p (bufPop b n).size = 0 ∧ (bufPop b n).data.length = 0)
      ∨ (bufPop b n).data.length = minCap (max p (bufPop b n).size)
    rw [bufPop_cap b n, bufPop_size]
    have hmax : max p (b.size - n) = p := by omega
    rw [hmax]
    exact hcap
  case push d =>
    show max p (bufPush b d).size ≤ (bufPush b d).data.length
    rw [bufPush_size]
    by_cases h : b.data.length < b.size + d.length
    · rw [bufPush_cap_of_grow b d h]
      have := growCap_ge (max b.data.length 32) (b.size + d.length) (by omega)
      omega
    · rw [bufPush_cap_of_fits b d (by omega)]
      omega
  case push d =>
    show (max p (bufPush b d).size = 0 ∧ (bufPush b d).data.length = 0)
      ∨ (bufPush b d).data.length = minCap (max p (bufPush b d).size)
    rw [bufPush_size]
    by_cases h : b.data.length < b.size + d.length
    · right
      rw [bufPush_cap_of_grow b d h]
      have hmax : max p (b.size + d.length) = b.size + d.length := by omega
      rw [hmax]
      rcases hcap with ⟨hp0, hc0⟩ | hc
      · rw [hc0, show max 0 32 = 32 from rfl]
        rfl
      · obtain ⟨j, hj⟩ := minCap_pow p
        have h32 : 32 ≤ b.data.length := by
          rw [hc]
          exact minCap_pos p
        have hmax2 : max b.data.length 32 = b.data.length := by omega
        rw [hmax2, hc, hj]
        exact growCap_shift j (b.size + d.length) (by rw [← hj, ← hc]; omega)
    · have hfit : (bufPush b d).data.length = b.data.length := bufPush_cap_of_fits b d (by omega)
      rw [hfit]
      rcases hcap with ⟨hp0, hc0⟩ | hc
      · left
        constructor
        · omega
        · exact hc0
      · right
        have hple : p ≤ max p (b.size + d.length) := Nat.le_max_left _ _
        have hcle : max p (b.size + d.length) ≤ minCap p := by
          rw [← hc]
          omega
        have h1 : minCap p ≤ minCap (max p (b.size + d.length)) := minCap_mono _ _ hple
        have h2 : minCap (max p (b.size + d.length)) ≤ minCap p := by
          calc minCap (max p (b.size + d.length)) ≤ minCap (minCap p) := minCap_mono _ _ hcle
            _ = minCap p := minCap_idem p
        rw [hc]
        omega

theorem capFold (ops : List BufOp) : ∀ (b : DynBuf) (p : Nat),
    b.wf → b.size ≤ p → p ≤ b.data.length →
    ((p = 0 ∧ b.data.length = 0) ∨ b.data.length = minCap p) →
    (ops.foldl applyOp b).wf
    ∧ (ops.foldl applyOp b).size ≤ (ops.foldl peakAux (b, p)).2
    ∧ (ops.foldl peakAux (b, p)).2 ≤ (ops.foldl applyOp b).data.length
    ∧ (((ops.foldl peakAux (b, p)).2 = 0 ∧ (ops.foldl applyOp b).data.length = 0)
        ∨ (ops.foldl applyOp b).data.length = minCap ((ops.foldl peakAux (b, p)).2)) := by
  induction ops with
  | nil =>
    intro b p h1 h2 h3 h4
    exact ⟨h1, h2, h3, h4⟩
  | cons op rest ih =>
    intro b p h1 h2 h3 h4
    simp only [List.foldl_cons]
    obtain ⟨g1, g2, g3, g4⟩ := capStep b p op h1 h2 h3 h4
    exact ih (applyOp b op) (max p (applyOp b op).size) g1 g2 g3 g4

/-- C6 counterexample: after pushing one empty chunk (a sequence of
push/pop operations), the buffer has capacity 0 — it starts from
`Buffer.alloc(0)` and an append of 0 bytes never exceeds capacity 0 — while
the smallest `32 * 2 ^ k` at or above the peak used size 0 is 32. The
claimed capacity formula therefore fails before the first growing
append. -/
theorem C6_capacity_counterexample :
    ¬ (runOps [BufOp.push []]).data.length = minCap (peakUsed [BufOp.push []]) := by
  show ¬ (0 = minCap 0)
  rw [minCap, growCap]
  simp

/-- C6 (amended): after any sequence of push/pop operations from the empty
buffer, `0 ≤ used ≤ cap` holds, capacity never shrinks along the history,
growth happens only when an append would exceed the current capacity, and
the capacity is either still 0 — while the peak used size is 0, before any
growing append — or exactly the smallest `32 * 2 ^ k` at or above the peak
used size. -/
theorem C6_capacity_invariant (ops : List BufOp) :
    (runOps ops).size ≤ (runOps ops).data.length
    ∧ (runOps ops).size ≤ peakUsed ops
    ∧ peakUsed ops ≤ (runOps ops).data.length
    ∧ ((peakUsed ops = 0 ∧ (runOps ops).data.length = 0)
        ∨ (runOps ops).data.length = minCap (peakUsed ops))
    ∧ (∀ pre suf, ops = pre ++ suf →
        (runOps pre).data.length ≤ (runOps ops).data.length)
    ∧ (∀ (b : DynBuf) (d : Bytes), b.size + d.length ≤ b.data.length →
        (bufPush b d).data.length = b.data.length) := by
  obtain ⟨h1, h2, h3, h4⟩ := capFold ops emptyBuf 0 emptyBuf_wf (Nat.le_refl 0)
    (Nat.le_refl 0) (Or.inl ⟨rfl, rfl⟩)
  refine ⟨h1, h2, h3, h4, ?_, fun b d h => bufPush_cap_of_fits b d h⟩
  intro pre suf hsplit
  rw [runOps, runOps, hsplit, List.foldl_append]
  exact foldl_cap_mono suf _

theorem C6_capacity_invariant_witness :
    (runOps [BufOp.push [104]]).data.length
      ≤ (runOps [BufOp.push [104], BufOp.pop 1]).data.length :=
  (C6_capacity_invariant [BufOp.push [104], BufOp.pop 1]).2.2.2.2.1
    [BufOp.push [104]] [BufOp.pop 1] rfl

/-! ### The connection adapter contracts -/

theorem runEvents_cons (c : TCPConn) (ev : ConnEvent) (rest : List ConnEvent) :
    runEvents c (ev :: rest) = runEvents (handleEvent c ev).1 rest := rfl

theorem err_persists (evs : List ConnEvent) : ∀ (c : TCPConn) (e : Err),
    c.err = some e → (∀ e2, ConnEvent.errored e2 ∉ evs) →
    (runEvents c evs).err = some e := by
  induction evs with
  | nil =>
    intro c e h _
    exact h
  | cons ev rest ih =>
    intro c e h hno
    rw [runEvents_cons]
    have hnorest : ∀ e2, ConnEvent.errored e2 ∉ rest := by
      intro e2 hm
      exact hno e2 (List.mem_cons_of_mem ev hm)
    cases ev with
    | data d => exact ih _ e h hnorest
    | eos => exact ih _ e h hnorest
    | errored e2 => exact absurd (List.mem_cons_self _ _) (hno e2)

theorem ended_persists (evs : List ConnEvent) : ∀ c : TCPConn,
    c.ended = true → (runEvents c evs).ended = true := by
  induction evs with
  | nil =>
    intro c h
    exact h
  | cons ev rest ih =>
    intro c h
    rw [runEvents_cons]
    cases ev with
    | data d => exact ih _ h
    | eos => exact ih _ rfl
    | errored e2 => exact ih _ h

theorem soRead_of_err (c : TCPConn) (e : Err) (h : c.err = some e) :
    soRead c = (.rejected e, c, []) := by
  rw [soRead, h]

theorem soRead_of_eof (c : TCPConn) (herr : c.err = none) (hend : c.ended = true) :
    soRead c = (.resolvedEmpty, c, []) := by
  rw [soRead, herr, hend]
  rfl

theorem soWrite_of_err (c : TCPConn) (d : Bytes) (e : Err) (h : c.err = some e) :
    soWrite c d = (.failedFast e, c, []) := by
  rw [soWrite, h]

theorem soWrite_of_no_err (c : TCPConn) (d : Bytes) (h : c.err = none) :
    soWrite c d = (.issued, c, [SockAct.writeData d]) := by
  rw [soWrite, h]

/-- C4: once an error is recorded in `conn.err`, it stays recorded through
any further `data`/`end` events, and every subsequent `soRead` or `soWrite`
rejects immediately with that same error — no state change, no reader
registration, and no transport action (no resume, no write). -/
theorem C4_error_latch (c : TCPConn) (e : Err) (evs : List ConnEvent)
    (herr : c.err = some e) (hno : ∀ e2, ConnEvent.errored e2 ∉ evs) :
    (runEvents c evs).err = some e
    ∧ soRead (runEvents c evs) = (.rejected e, runEvents c evs, [])
    ∧ ∀ d, soWrite (runEvents c evs) d = (.failedFast e, runEvents c evs, []) := by
  have hp := err_persists evs c e herr hno
  exact ⟨hp, soRead_of_err _ e hp, fun d => soWrite_of_err _ d e hp⟩

theorem C4_error_latch_witness :
    soRead (runEvents { err := some 7, ended := false, reader := false }
        [ConnEvent.data [104], ConnEvent.eos])
      = (.rejected 7,
          runEvents { err := some 7, ended := false, reader := false }
            [ConnEvent.data [104], ConnEvent.eos], []) :=
  (C4_error_latch { err := some 7, ended := false, reader := false } 7
    [ConnEvent.data [104], ConnEvent.eos] rfl
    (by intro e2 h; simp [List.mem_cons] at h)).2.1

/-- C5: once end-of-stream is signaled (`conn.ended` set), it stays set
through any further events; every subsequent `soRead` on a connection with
no recorded error resolves immediately with empty bytes — no suspension, no
error, no transport action — and a recorded error takes precedence. -/
theorem C5_eof_contract (c : TCPConn) (evs : List ConnEvent) (hend : c.ended = true) :
    (runEvents c evs).ended = true
    ∧ ((runEvents c evs).err = none →
        soRead (runEvents c evs) = (.resolvedEmpty, runEvents c evs, []))
    ∧ (∀ e, (runEvents c evs).err = some e →
        soRead (runEvents c evs) = (.rejected e, runEvents c evs, [])) := by
  have hp := ended_persists evs c hend
  exact ⟨hp, fun herr => soRead_of_eof _ herr hp, fun e herr => soRead_of_err _ e herr⟩

theorem C5_eof_contract_witness :
    soRead (runEvents { err := none, ended := true, reader := false }
        [ConnEvent.data [105]])
      = (.resolvedEmpty,
          runEvents { err := none, ended := true, reader := false }
            [ConnEvent.data [105]], []) :=
  (C5_eof_contract { err := none, ended := true, reader := false }
    [ConnEvent.data [105]] rfl).2.1 rfl

/-- C10 (implicit): `soWrite` consults only the error latch, never the
end-of-stream flag — on a connection with `ended` set but no recorded
error, the write is still issued to the transport, and its completion
callback alone decides between resolution and rejection. -/
theorem C10_write_ignores_eof (c : TCPConn) (d : Bytes)
    (_hend : c.ended = true) (herr : c.err = none) :
    soWrite c d = (.issued, c, [SockAct.writeData d])
    ∧ writeFinish none = .resolved
    ∧ (∀ e, writeFinish (some e) = .rejected e) :=
  ⟨soWrite_of_no_err c d herr, rfl, fun _ => rfl⟩

theorem C10_write_ignores_eof_witness :
    soWrite { err := none, ended := true, reader := false } [104]
      = (.issued, { err := none, ended := true, reader := false },
          [SockAct.writeData [104]]) :=
  (C10_write_ignores_eof { err := none, ended := true, reader := false } [104]
    rfl rfl).1

/-! ### The handler loop -/

theorem serveLoop_succ_some (fuel : Nat) (b buf2 : DynBuf) (msg : Bytes)
    (inputs writes : List Bytes) (destroyed : Bool)
    (hcut : cutMessage b = (some msg, buf2)) (hne : msg ≠ quitMsg) :
    serveLoop (fuel + 1) b inputs writes destroyed
      = serveLoop fuel buf2 inputs (writes ++ [echoTag ++ msg]) destroyed := by
  conv_lhs => rw [serveLoop]
  simp only [hcut]
  rw [if_neg hne]

theorem serveLoop_succ_quit (fuel : Nat) (b buf2 : DynBuf)
    (inputs writes : List Bytes) (destroyed : Bool)
    (hcut : cutMessage b = (some quitMsg, buf2)) :
    serveLoop (fuel + 1) b inputs writes destroyed
      = serveLoop fuel buf2 inputs (writes ++ [byeMsg]) true := by
  conv_lhs => rw [serveLoop]
  simp only [hcut]
  rw [if_pos trivial]

theorem serveLoop_succ_read (fuel : Nat) (b : DynBuf) (d : Bytes)
    (rest writes : List Bytes) (destroyed : Bool)
    (hcut : cutMessage b = (none, b)) (hne : d ≠ []) :
    serveLoop (fuel + 1) b (d :: rest) writes destroyed
      = serveLoop fuel (bufPush b d) rest writes destroyed := by
  conv_lhs => rw [serveLoop]
  simp only [hcut]
  rw [if_neg (fun h => hne (List.length_eq_zero.mp h))]

theorem serveLoop_succ_blocked (fuel : Nat) (b : DynBuf)
    (writes : List Bytes) (destroyed : Bool)
    (hcut : cutMessage b = (none, b)) :
    serveLoop (fuel + 1) b [] writes destroyed = .blocked writes destroyed b := by
  conv_lhs => rw [serveLoop]
  simp only [hcut]

/-- Draining all buffered messages: while the buffer holds `k` complete
non-quit messages, `k` loop iterations emit their `Echo: ` replies in
order without touching the input queue, leaving the delimiter-free
remainder buffered. -/
theorem serveLoop_drain (k : Nat) : ∀ (s : Bytes) (b : DynBuf) (fuel : Nat)
    (inputs writes : List Bytes) (destroyed : Bool),
    b.wf → b.used = s → s.count NL = k →
    (∀ m ∈ lineSegments s, m ≠ quitMsg) →
    ∃ b2 : DynBuf, b2.wf ∧ b2.used = lineRest s ∧
      serveLoop (fuel + k) b inputs writes destroyed
        = serveLoop fuel b2 inputs
            (writes ++ (lineSegments s).map (fun m => echoTag ++ m)) destroyed := by
  induction k with
  | zero =>
    intro s b fuel inputs writes destroyed hwf hused hcount hq
    have hno : NL ∉ s := by
      intro hm
      rw [← List.count_pos_iff] at hm
      omega
    refine ⟨b, hwf, ?_, ?_⟩
    · rw [hused]
      show s = remAux s []
      rw [(segsAux_of_no_delim s hno []).2]
      rfl
    · rw [Nat.add_zero, lineSegments, (segsAux_of_no_delim s hno []).1]
      simp
  | succ k ih =>
    intro s b fuel inputs writes destroyed hwf hused hcount hq
    have hmem : NL ∈ s := by
      rw [← List.count_pos_iff]
      omega
    obtain ⟨idx, hidx⟩ : ∃ idx, s.findIdx? (· == NL) = some idx := by
      refine Option.isSome_iff_exists.mp ?_
      rw [List.findIdx?_isSome, List.any_eq_true]
      exact ⟨NL, hmem, by simp⟩
    obtain ⟨hlt, htake, hnot, hcnt⟩ := findIdx_first s idx hidx
    have hused_find : b.used.findIdx? (· == NL) = some idx := by
      rw [hused]
      exact hidx
    obtain ⟨hcut, hidxlt⟩ := cutMessage_of_delim b idx hwf hused_find
    have hb1wf := bufPop_wf b (idx + 1) hwf
    have hb1used : (bufPop b (idx + 1)).used = s.drop (idx + 1) := by
      rw [bufPop_used b _ hwf hidxlt, hused]
    have hsegs := segsAux_of_delim s idx hidx []
    have hseg_eq : lineSegments s
        = s.take (idx + 1) :: lineSegments (s.drop (idx + 1)) := by
      rw [lineSegments, hsegs.1]
      simp
    have hmsg_ne : s.take (idx + 1) ≠ quitMsg := by
      refine hq _ ?_
      rw [hseg_eq]
      exact List.mem_cons_self _ _
    have hcut2 : cutMessage b = (some (s.take (idx + 1)), bufPop b (idx + 1)) := by
      rw [hcut, hused]
    have hstep : serveLoop (fuel + (k + 1)) b inputs writes destroyed
        = serveLoop (fuel + k) (bufPop b (idx + 1)) inputs
            (writes ++ [echoTag ++ s.take (idx + 1)]) destroyed := by
      rw [show fuel + (k + 1) = (fuel + k) + 1 from rfl]
      exact serveLoop_succ_some (fuel + k) b _ _ inputs writes destroyed hcut2 hmsg_ne
    have hq2 : ∀ m ∈ lineSegments (s.drop (idx + 1)), m ≠ quitMsg := by
      intro m hm
      refine hq m ?_
      rw [hseg_eq]
      exact List.mem_cons_of_mem _ hm
    obtain ⟨b2, hb2wf, hb2used, hrun⟩ := ih (s.drop (idx + 1)) (bufPop b (idx + 1)) fuel
      inputs (writes ++ [echoTag ++ s.take (idx + 1)]) destroyed hb1wf hb1used (by omega) hq2
    refine ⟨b2, hb2wf, ?_, ?_⟩
    · rw [hb2used]
      exact hsegs.2.symm
    · rw [hstep, hrun, hseg_eq]
      simp

/-- C7: delivering one nonempty chunk to a fresh handler whose buffered
messages are all non-quit makes the loop reply `Echo: `-prefixed copies of
every complete message, in order, before it blocks waiting for another
read; each reply preserves the message bytes including the trailing
delimiter, and the socket is not destroyed. -/
theorem C7_echo_and_drain_before_read (chunk : Bytes) (hne : chunk ≠ [])
    (hq : ∀ m ∈ lineSegments chunk, m ≠ quitMsg) :
    (serveLoop (chunk.count NL + 2) emptyBuf [chunk] [] false).writesOf
        = (lineSegments chunk).map (fun m => echoTag ++ m)
    ∧ (serveLoop (chunk.count NL + 2) emptyBuf [chunk] [] false).isBlocked = true
    ∧ (serveLoop (chunk.count NL + 2) emptyBuf [chunk] [] false).destroyedOf = false
    ∧ (∀ m ∈ lineSegments chunk, ∃ p, m = p ++ [NL] ∧ NL ∉ p) := by
  have hcut0 : cutMessage emptyBuf = (none, emptyBuf) :=
    cutMessage_of_no_delim _ (by rw [emptyBuf_used]; simp)
  have h1 : serveLoop (chunk.count NL + 2) emptyBuf [chunk] [] false
      = serveLoop (chunk.count NL + 1) (bufPush emptyBuf chunk) [] [] false := by
    rw [show chunk.count NL + 2 = (chunk.count NL + 1) + 1 from rfl]
    exact serveLoop_succ_read _ _ _ _ _ _ hcut0 hne
  have hbwf := bufPush_wf emptyBuf chunk
  have hbused : (bufPush emptyBuf chunk).used = chunk := by
    rw [bufPush_used _ _ emptyBuf_wf, emptyBuf_used]
    rfl
  obtain ⟨b2, hb2wf, hb2used, hrun⟩ := serveLoop_drain (chunk.count NL) chunk
    (bufPush emptyBuf chunk) 1 [] [] false hbwf hbused rfl hq
  have hb2cut : cutMessage b2 = (none, b2) :=
    cutMessage_of_no_delim _ (by rw [hb2used]; exact lineRest_no_delim chunk [] (by simp))
  have h2 := serveLoop_succ_blocked 0 b2
    ([] ++ (lineSegments chunk).map (fun m => echoTag ++ m)) false hb2cut
  have hfull : serveLoop (chunk.count NL + 2) emptyBuf [chunk] [] false
      = .blocked ((lineSegments chunk).map (fun m => echoTag ++ m)) false b2 := by
    rw [h1, show chunk.count NL + 1 = 1 + chunk.count NL by omega, hrun, h2]
    simp
  rw [hfull]
  exact ⟨rfl, rfl, rfl, segsAux_shape chunk [] (by simp)⟩

theorem C7_echo_and_drain_before_read_witness :
    (serveLoop (([120, 10, 121, 10] : Bytes).count NL + 2) emptyBuf
        [[120, 10, 121, 10]] [] false).writesOf
      = (lineSegments [120, 10, 121, 10]).map (fun m => echoTag ++ m) :=
  (C7_echo_and_drain_before_read [120, 10, 121, 10] (by simp)
    (by decide)).1

/-- C3 (divergence witness): on the single chunk `quit\nx\n` the handler
writes `Bye\n` and destroys the socket, but — the quit branch not leaving
the loop — it then cuts the already-buffered `x\n` and issues a further
`Echo: x\n` write on the destroyed socket, ending up suspended in another
read instead of terminating. -/
theorem C3_quit_processing_continues :
    (serveLoop 5 emptyBuf [[113, 117, 105, 116, 10, 120, 10]] [] false).writesOf
        = [byeMsg, echoTag ++ [120, 10]]
    ∧ (serveLoop 5 emptyBuf [[113, 117, 105, 116, 10, 120, 10]] [] false).destroyedOf
        = true
    ∧ (serveLoop 5 emptyBuf [[113, 117, 105, 116, 10, 120, 10]] [] false).isBlocked
        = true := by
  refine ⟨?_, ?_, ?_⟩ <;>
    simp [serveLoop, cutMessage, bufPush, bufPop, bufCopy, growCap, emptyBuf,
      quitMsg, byeMsg, echoTag, NL, LoopRes.writesOf, LoopRes.destroyedOf, LoopRes.isBlocked]

/-- C9 (divergence witness): on a connection that reaches end-of-stream,
the handler loop breaks out normally with `socket.destroy()` never called —
the only destroy in `serveClient` sits on the quit path, and `main` spawns
the handler with no cleanup — so the normal exit path leaves the socket
open. -/
theorem C9_normal_exit_never_destroys :
    serveLoop 2 emptyBuf [[]] [] false = LoopRes.ended [] false emptyBuf := by
  rfl

end EchoSrv
